import Mathlib

/-!
A shallow embedding of the error-aggregation core of the validino library
(src/validino/base.py): the Invalid exception type (construction, the
add_error_message mutator, and the recursive unpack_errors flattening), the
compose and either combinators, the integer leaf validator, and the Schema
mapping validator.

Modelling conventions:
  - Python values in scope are modelled by the inductive Val (None, strings,
    integers, and tuples; tuples are the only sequence type validators pass
    around in the modelled fragment).
  - Python dictionaries are modelled as association lists that preserve
    insertion order; assignment to an existing key replaces the value in
    place, assignment to a fresh key appends at the end.  Python 2 dict
    iteration order is unspecified; the claims proved below do not depend on
    it, and the model fixes insertion order.
  - Exceptions raised by validators are modelled by the type Exc: either an
    Invalid carrying a message and a field-error mapping, or a plain
    exception carrying its first argument and an optional field attribute
    (Schema.__call__ reads getattr(e, 'field', k)).
  - Python 2 closure semantics matter for either(): the assignment
    last_exception = e inside the inner function makes last_exception a
    local of that function, so invoking either() built from zero validators
    raises UnboundLocalError; the model records this outcome as the
    distinguished error EitherErr.unboundLocal.
  - Schema.__call__ with filter_extra=False binds res to the very data dict
    passed by the caller (res = data), so mutations of res mutate the
    caller's mapping.  Schema.callFull returns the call outcome together
    with the final state of the caller's data mapping to make this aliasing
    observable.
-/

namespace Validino

/-- Python values flowing through the modelled validators. -/
inductive Val where
  | none
  | str (s : String)
  | int (n : Int)
  | tup (vs : List Val)

/-- Field keys of error dictionaries: None, a string, or a tuple of strings. -/
inductive Key where
  | none
  | s (x : String)
  | t (xs : List String)
deriving DecidableEq, Repr

/-- Schema keys: singular (a string) or plural (a tuple of strings). -/
inductive SKey where
  | s (x : String)
  | t (xs : List String)
deriving DecidableEq, Repr

mutual
/-- Python equality (==) on modelled values. -/
def valBeq : Val → Val → Bool
  | .none, .none => true
  | .str a, .str b => a == b
  | .int a, .int b => a == b
  | .tup a, .tup b => valBeqL a b
  | _, _ => false
/-- Python equality on tuples, elementwise. -/
def valBeqL : List Val → List Val → Bool
  | [], [] => true
  | a :: as, b :: bs => valBeq a b && valBeqL as bs
  | _, _ => false
end

/-- Python truthiness of a modelled value. -/
def valTruthy : Val → Bool
  | .none => false
  | .str s => !(s == "")
  | .int n => !(n == 0)
  | .tup vs => !vs.isEmpty

/-- Python truthiness of an optional message (None is falsy). -/
def msgTruthy : Option Val → Bool
  | Option.none => false
  | some v => valTruthy v

/-- Python truthiness of a field key (getattr(e, 'field', k) or k). -/
def keyTruthy : Key → Bool
  | .none => false
  | .s x => !(x == "")
  | .t xs => !xs.isEmpty

/-! ### Association lists modelling Python dictionaries -/

/-- Dictionary lookup: d.get(k) as an Option. -/
def aget {α β : Type} [DecidableEq α] : List (α × β) → α → Option β
  | [], _ => Option.none
  | (a, b) :: l, x => if a = x then some b else aget l x

/-- Dictionary assignment d[k] = v: replace in place, or append a new entry. -/
def aset {α β : Type} [DecidableEq α] : List (α × β) → α → β → List (α × β)
  | [], x, y => [(x, y)]
  | (a, b) :: l, x, y => if a = x then (a, y) :: l else (a, b) :: aset l x y

/-! ### The Invalid exception type (base.py lines 103-187) -/

mutual
/-- The Invalid exception: an optional top message (self.message, the first
positional non-dict argument) and the per-field error dictionary
(self.errors). -/
inductive Invalid where
  | mk (message : Option Val) (errors : List (Key × List EEntry))
/-- An exception a validator may raise: an Invalid, or a plain exception with
its first argument (args[0]) and an optional field attribute. -/
inductive Exc where
  | inv (i : Invalid)
  | plain (arg0 : Val) (field : Option Key)
/-- An entry of a field-error bucket: a plain message value or a nested
exception. -/
inductive EEntry where
  | val (v : Val)
  | exc (e : Exc)
end

def Invalid.message : Invalid → Option Val
  | .mk m _ => m

def Invalid.errors : Invalid → List (Key × List EEntry)
  | .mk _ e => e

/-- A value bound to a key in a dictionary handed to the Invalid constructor:
either a single entry or a Python list of entries.  A single tuple value is
distinguished by the isinstance(v, (list, tuple)) tests in the source. -/
inductive InitV where
  | one (e : EEntry)
  | lst (es : List EEntry)

/-- A positional argument of the Invalid constructor: a dictionary of field
errors or a plain (non-dict) message value. -/
inductive CtorArg where
  | pos (v : Val)
  | dict (d : List (Key × InitV))

/-- The list/tuple flattening of one bound value, as applied by
Invalid._join_dicts: a list extends the bucket, a tuple value likewise, and
any other single value is appended. -/
def initvEntries : InitV → List EEntry
  | .one (.val (.tup vs)) => vs.map EEntry.val
  | .one e => [e]
  | .lst es => es

/-- Invalid._join_dicts restricted to one key/value pair (base.py lines
125-132): res.setdefault(k, []) followed by append or extend. -/
def joinOneInit (r : List (Key × List EEntry)) (k : Key) (iv : InitV) :
    List (Key × List EEntry) :=
  let r1 := if (aget r k).isSome then r else r ++ [(k, [])]
  aset r1 k (((aget r1 k).getD []) ++ initvEntries iv)

/-- Invalid._join_dicts (base.py lines 125-132). -/
def joinDictsInit (r : List (Key × List EEntry)) (d : List (Key × InitV)) :
    List (Key × List EEntry) :=
  d.foldl (fun r p => joinOneInit r p.1 p.2) r

/-- Invalid._normalize_dict (base.py lines 134-143): wrap each non-sequence
value in a singleton list, keep sequences as they are. -/
def normalizeDict (d : List (Key × InitV)) : List (Key × List EEntry) :=
  d.map fun p => (p.1, initvEntries p.2)

/-- Python dict.update: assign every pair of the second dictionary into the
first. -/
def updateMap (r m : List (Key × List EEntry)) : List (Key × List EEntry) :=
  m.foldl (fun r p => aset r p.1 p.2) r

/-- The Invalid constructor (base.py lines 107-123): dict positional
arguments are merged into the error dictionary, other positional arguments
are collected in order (the first becomes self.message), and keyword
bindings are normalized and then update the error dictionary. -/
def invalidNew (args : List CtorArg) (kw : List (Key × InitV)) : Invalid :=
  let d := args.foldl
    (fun d a => match a with
      | .dict dd => joinDictsInit d dd
      | .pos _ => d) []
  let p := args.filterMap fun a => match a with
    | .pos v => some v
    | .dict _ => Option.none
  Invalid.mk p.head? (updateMap d (normalizeDict kw))

/-- Python membership msg in d[k]: the bucket contains an element equal (by
Python ==) to the plain message; exception entries never compare equal to a
plain value. -/
def pyMemVal (l : List EEntry) (m : Val) : Bool :=
  l.any fun e => match e with
    | .val v => valBeq v m
    | _ => false

/-- _add_error_message (base.py lines 48-55): d.setdefault(k, []) and append
msg if it is not already present. -/
def addErrorMessage (errs : List (Key × List EEntry)) (k : Key) (m : Val) :
    List (Key × List EEntry) :=
  let r1 := if (aget errs k).isSome then errs else errs ++ [(k, [])]
  let bucket := (aget r1 k).getD []
  if pyMemVal bucket m then r1 else aset r1 k (bucket ++ [.val m])

/-- Invalid.add_error_message (base.py lines 154-155). -/
def Invalid.add_error_message (i : Invalid) (k : Key) (m : Val) : Invalid :=
  .mk i.message (addErrorMessage i.errors k m)

/-! ### unpack_errors (base.py lines 145-187) -/

/-- The result of Invalid.unpack_errors: the bare top message (when there are
no field errors and force_dict is false), a dictionary of per-key message
lists (list_of_errors=True), or a collapsed dictionary of single messages
(list_of_errors=False). -/
inductive URes where
  | bare (v : Option Val)
  | dictL (m : List (Key × List Val))
  | dictC (m : List (Key × Val))

/-- Invalid._safe_append (base.py lines 145-152) applied to a single value:
the value is not a list or dict, so it is wrapped and appended to the bucket
(creating the bucket when the key is absent). -/
def safeAppendU (r : List (Key × List Val)) (k : Key) (v : Val) :
    List (Key × List Val) :=
  match aget r k with
  | some l => aset r k (l ++ [v])
  | Option.none => r ++ [(k, [v])]

/-- The contribution of one merged value in Invalid._join_dicts: a tuple
value is a sequence and extends the bucket elementwise, any other value is
appended whole. -/
def uext : Val → List Val
  | .tup vs => vs
  | v => [v]

/-- Invalid._join_dicts merging one pair of a collapsed dictionary into the
unpack result: setdefault, then append (or extend, when the value is a
tuple, which isinstance(v, (list, tuple)) treats as a sequence). -/
def joinOneU (r : List (Key × List Val)) (k : Key) (v : Val) :
    List (Key × List Val) :=
  let r1 := if (aget r k).isSome then r else r ++ [(k, [])]
  aset r1 k (((aget r1 k).getD []) ++ uext v)

/-- Invalid._join_dicts merging a collapsed recursive unpack result into the
current result (the m.unpack_errors(force_dict=False) branch of line 178). -/
def joinDictsUnpack (r : List (Key × List Val)) (m : List (Key × Val)) :
    List (Key × List Val) :=
  m.foldl (fun r p => joinOneU r p.1 p.2) r

/-- The collapsing comprehension of line 185: keep the first message of every
non-empty bucket, dropping keys whose bucket is empty. -/
def collapseL (r : List (Key × List Val)) : List (Key × Val) :=
  r.filterMap fun p => match p.2 with
    | [] => Option.none
    | m :: _ => some (p.1, m)

mutual
/-- Invalid.unpack_errors (base.py lines 157-187).  The source guards the
bucket loop with if self.errors; looping over an empty dictionary is a
no-op, so the guard is dropped here. -/
def unpack_errors (i : Invalid) (force_dict list_of_errors : Bool) : URes :=
  match i with
  | .mk message errors =>
    if errors.isEmpty && !force_dict then
      .bare message
    else
      let seed : List (Key × List Val) :=
        match message with
        | some m => if valTruthy m then [(Key.none, [m])] else []
        | Option.none => []
      let result := unpackBuckets errors seed
      if list_of_errors then .dictL result else .dictC (collapseL result)
/-- The outer loop over (name, msglist) buckets of self.errors. -/
def unpackBuckets (bs : List (Key × List EEntry)) (r : List (Key × List Val)) :
    List (Key × List Val) :=
  match bs with
  | [] => r
  | (name, ms) :: rest => unpackBuckets rest (unpackMsgs name ms r)
/-- The inner loop over the entries of one bucket. -/
def unpackMsgs (name : Key) (ms : List EEntry) (r : List (Key × List Val)) :
    List (Key × List Val) :=
  match ms with
  | [] => r
  | m :: rest => unpackMsgs name rest (unpackEntry name m r)
/-- The body of the inner loop (base.py lines 169-182): plain messages are
appended under the bucket key; an Invalid entry is recursively unpacked with
force_dict=False, a dict result is merged wholesale, a truthy bare result is
appended under the bucket key; a non-Invalid exception contributes its first
argument (the AttributeError fallback of line 173). -/
def unpackEntry (name : Key) (m : EEntry) (r : List (Key × List Val)) :
    List (Key × List Val) :=
  match m with
  | .val v => safeAppendU r name v
  | .exc (.plain arg0 _) => safeAppendU r name arg0
  | .exc (.inv i) =>
    match unpack_errors i false false with
    | .dictC m2 => joinDictsUnpack r m2
    | .bare vo =>
      match vo with
      | some v => if valTruthy v then safeAppendU r name v else r
      | Option.none => r
    | .dictL _ => r
end

/-! ### Message lookup and leaf validators -/

/-- The msg argument accepted throughout base.py: absent, a literal message,
or a dictionary from internal failure-kind keys to custom messages. -/
inductive MsgSpec where
  | none
  | lit (v : Val)
  | map (m : List (String × Val))

/-- _msg (base.py lines 57-67): dictionary lookup with default, None falls
back to the default, and any other message is returned as is. -/
def msgOf : MsgSpec → String → Val → Val
  | .none, _, dflt => dflt
  | .lit v, _, _ => v
  | .map m, key, dflt => (aget m key).getD dflt

/-- A validator: returns a transformed value or raises an exception. -/
abbrev Validator := Val → Except Exc Val

/-- Python whitespace, as stripped by int() on strings. -/
def pySpace (c : Char) : Bool :=
  c = ' ' || c = '\t' || c = '\n' || c = '\r' || c = '\x0B' || c = '\x0C'

/-- Strip leading and trailing whitespace from a character list. -/
def stripChars (cs : List Char) : List Char :=
  ((cs.dropWhile pySpace).reverse.dropWhile pySpace).reverse

/-- Parse a non-empty run of decimal digits. -/
def digitsToNat (cs : List Char) : Option Nat :=
  if cs.isEmpty then Option.none
  else cs.foldl
    (fun acc c => acc.bind fun n =>
      if c.isDigit then some (n * 10 + (c.toNat - 48)) else Option.none)
    (some 0)

/-- Python int() on a string: strip whitespace, then an optional sign and a
non-empty run of digits; anything else raises ValueError. -/
def pyParseInt (s : String) : Option Int :=
  match stripChars s.data with
  | '-' :: rest => (digitsToNat rest).map fun n => -(Int.ofNat n)
  | '+' :: rest => (digitsToNat rest).map Int.ofNat
  | t => (digitsToNat t).map Int.ofNat

/-- integer (base.py lines 617-628): coerce to int, raising Invalid on
TypeError or ValueError. -/
def integerV (msg : MsgSpec) : Validator := fun value =>
  match value with
  | .int n => .ok (.int n)
  | .str s =>
    match pyParseInt s with
    | some n => .ok (.int n)
    | Option.none =>
      .error (.inv (invalidNew [.pos (msgOf msg "integer" (.str "not an integer"))] []))
  | _ => .error (.inv (invalidNew [.pos (msgOf msg "integer" (.str "not an integer"))] []))

/-- The loop of compose (base.py lines 427-436): thread the value through the
validators, propagating the first raised exception. -/
def composeRun : List Validator → Val → Except Exc Val
  | [], v => .ok v
  | f :: fs, v =>
    match f v with
    | .ok w => composeRun fs w
    | .error e => .error e

/-- compose (base.py lines 427-436). -/
def composeV (fs : List Validator) : Validator := composeRun fs

/-- The outcome of invoking a validator built by either(): a re-raised
exception, or the UnboundLocalError produced by raising the never-assigned
local last_exception (Python 2 scoping: the assignment inside f makes
last_exception local to f, so the closure cell initialized to None is
shadowed and the zero-validator call reads an unbound local). -/
inductive EitherErr where
  | exc (e : Exc)
  | unboundLocal

/-- The loop of either (base.py lines 409-425): try each validator on the
original value (the assignment value = v(value) does not happen when v
raises), return the first success, and finally re-raise the last caught
exception, or UnboundLocalError when none was ever caught. -/
def eitherRun : List Validator → Val → Option Exc → Except EitherErr Val
  | [], _, Option.none => .error .unboundLocal
  | [], _, some e => .error (.exc e)
  | v :: vs, value, _ =>
    match v value with
    | .ok w => .ok w
    | .error e => eitherRun vs value (some e)

/-- either (base.py lines 409-425). -/
def eitherV (vs : List Validator) : Val → Except EitherErr Val := fun value =>
  eitherRun vs value Option.none

/-! ### Schema (base.py lines 190-291) -/

/-- A subvalidator bound to a schema key: one validator, or a sequence of
validators composed automatically (the isinstance(vfunc, (list, tuple))
test of line 264). -/
inductive VSpec where
  | v (f : Validator)
  | seq (fs : List Validator)

/-- Resolve a subvalidator value, composing sequences. -/
def resolveV : VSpec → Validator
  | .v f => f
  | .seq fs => composeV fs

/-- The Schema object (base.py lines 220-230). -/
structure Schema where
  subvalidators : List (SKey × VSpec)
  msg : MsgSpec
  allow_missing : Bool
  allow_extra : Bool
  filter_extra : Bool

/-- Schema._keys (base.py lines 232-240): the known key set, flattening
plural keys.  The Python set is modelled as a duplicate-free list. -/
def Schema.knownKeys (s : Schema) : List String :=
  s.subvalidators.foldl
    (fun acc p =>
      match p.1 with
      | .s x => if acc.contains x then acc else acc ++ [x]
      | .t xs => xs.foldl (fun a x => if a.contains x then a else a ++ [x]) acc) []

/-- Non-emptiness of inputkeys.difference(schemakeys) (line 252). -/
def hasExtra (s : Schema) (d : List (String × Val)) : Bool :=
  (d.map Prod.fst).any fun k => !(s.knownKeys.contains k)

/-- Non-emptiness of schemakeys.difference(inputkeys) (line 257). -/
def hasMissing (s : Schema) (d : List (String × Val)) : Bool :=
  s.knownKeys.any fun k => !((d.map Prod.fst).contains k)

/-- Python 2 ordering on strings (byte-wise lexicographic). -/
def charListLe : List Char → List Char → Bool
  | [], _ => true
  | _ :: _, [] => false
  | a :: as, b :: bs => if a = b then charListLe as bs else decide (a < b)

def strLe (a b : String) : Bool := charListLe a.data b.data

/-- Python 2 lexicographic ordering on tuples of strings. -/
def strListLe : List String → List String → Bool
  | [], _ => true
  | _ :: _, [] => false
  | a :: as, b :: bs => if a = b then strListLe as bs else strLe a b

/-- Python 2 ordering on mixed schema keys: strings compare before tuples
(type names 'str' < 'tuple'), otherwise the values compare directly. -/
def skeyLeB : SKey → SKey → Bool
  | .s a, .s b => strLe a b
  | .s _, .t _ => true
  | .t _, .s _ => false
  | .t a, .t b => strListLe a b

def skeyLe (a b : SKey) : Prop := skeyLeB a b = true

instance : DecidableRel skeyLe := fun a b => by
  unfold skeyLe
  infer_instance

/-- sorted(self.subvalidators) (line 262). -/
def sortedKeys (s : Schema) : List SKey :=
  List.insertionSort skeyLe (s.subvalidators.map Prod.fst)

/-- The embedding of Key into the bucket keys of the exception dictionary. -/
def skeyKey : SKey → Key
  | .s x => .s x
  | .t xs => .t xs

/-- getattr(e, 'field', k) or k (line 277): a truthy field attribute of the
raised exception overrides the schema key as the bucket key. -/
def nameOf (e : Exc) (k : SKey) : Key :=
  match e with
  | .inv _ => skeyKey k
  | .plain _ f =>
    match f with
    | some fk => if keyTruthy fk then fk else skeyKey k
    | Option.none => skeyKey k

/-- exceptions.setdefault(name, []); exceptions[name].append(e)
(lines 278-279). -/
def excAdd (m : List (Key × List Exc)) (n : Key) (e : Exc) :
    List (Key × List Exc) :=
  match aget m n with
  | some es => aset m n (es ++ [e])
  | Option.none => m ++ [(n, [e])]

/-- res.get(k, data.get(k)) for one atom key (lines 268-270).  When the
schema was built with filter_extra=False (al = true), res is the very data
dictionary, so the fallback lookup reads the current res. -/
def gatherOne (al : Bool) (d0 res : List (String × Val)) (x : String) : Val :=
  match aget res x with
  | some v => v
  | Option.none =>
    match aget (if al then res else d0) x with
    | some v => v
    | Option.none => Val.none

/-- Python iteration of the validator result in dict(zip(k, tmp)) (line
282): tuples and strings are iterable, anything else raises an uncaught
TypeError. -/
def seqView : Val → Option (List Val)
  | .tup vs => some vs
  | .str s => some (s.data.map fun c => Val.str (String.mk [c]))
  | _ => Option.none

/-- res.update(dict(zip(k, tmp))) (line 282): assign each pair in order. -/
def storePairs (res : List (String × Val)) (prs : List (String × Val)) :
    List (String × Val) :=
  prs.foldl (fun r p => aset r p.1 p.2) res

/-- One per-key outcome of the Schema loop, recorded for the statements
below: the key, the gathered value handed to the subvalidator, and the
subvalidator's result. -/
abbrev Outc := SKey × Val × Except Exc Val

/-- The subvalidator loop of Schema.__call__ (base.py lines 262-284),
threading the result dictionary and the exception dictionary through the
sorted keys.  The third component is the ghost log of per-key invocations
(in order); the fourth is true when the loop aborts with an uncaught
exception (a KeyError on a key missing from subvalidators, or the TypeError
raised by zipping a non-iterable plural result), in which case res is the
state at the point of the abort. -/
def runLoop (al : Bool) (d0 : List (String × Val)) (sv : List (SKey × VSpec)) :
    List SKey → List (String × Val) → List (Key × List Exc) →
    List (String × Val) × List (Key × List Exc) × List Outc × Bool
  | [], res, excs => (res, excs, [], false)
  | k :: ks, res, excs =>
    match aget sv k with
    | Option.none => (res, excs, [], true)
    | some vspec =>
      let vf := resolveV vspec
      match k with
      | .s x =>
        let vdata := gatherOne al d0 res x
        match vf vdata with
        | .error e =>
          let t := runLoop al d0 sv ks res (excAdd excs (nameOf e (.s x)) e)
          (t.1, t.2.1, (SKey.s x, vdata, .error e) :: t.2.2.1, t.2.2.2)
        | .ok tmp =>
          let t := runLoop al d0 sv ks (aset res x tmp) excs
          (t.1, t.2.1, (SKey.s x, vdata, .ok tmp) :: t.2.2.1, t.2.2.2)
      | .t xs =>
        let vdata := Val.tup (xs.map (gatherOne al d0 res))
        match vf vdata with
        | .error e =>
          let t := runLoop al d0 sv ks res (excAdd excs (nameOf e (.t xs)) e)
          (t.1, t.2.1, (SKey.t xs, vdata, .error e) :: t.2.2.1, t.2.2.2)
        | .ok tmp =>
          match seqView tmp with
          | some vs =>
            let t := runLoop al d0 sv ks (storePairs res (xs.zip vs)) excs
            (t.1, t.2.1, (SKey.t xs, vdata, .ok tmp) :: t.2.2.1, t.2.2.2)
          | Option.none => (res, excs, [(SKey.t xs, vdata, .ok tmp)], true)

/-- The outcome of Schema.__call__. -/
inductive CallOutcome where
  | ok (res : List (String × Val))
  | err (e : Exc)
  | typeErr

/-- The full subvalidator run of a call, starting from the initial res of
line 243-246 (the data dictionary itself when filter_extra is false, an
empty dictionary otherwise). -/
def Schema.runAll (s : Schema) (data : List (String × Val)) :
    List (String × Val) × List (Key × List Exc) × List Outc × Bool :=
  runLoop (!s.filter_extra) data s.subvalidators (sortedKeys s)
    (if !s.filter_extra then data else []) []

/-- The dictionary argument of the final raise (line 287-290): each bucket
of caught exceptions, as a constructor dict value. -/
def excsToInit (m : List (Key × List Exc)) : List (Key × InitV) :=
  m.map fun p => (p.1, .lst (p.2.map EEntry.exc))

/-- Schema.__call__ after the extra/missing checks (base.py lines 262-291):
run the loop, then raise the aggregated Invalid when any exceptions were
recorded, or return res. -/
def Schema.afterChecks (s : Schema) (data : List (String × Val)) :
    CallOutcome × List (String × Val) :=
  let r := s.runAll data
  let dataFinal := if s.filter_extra then data else r.1
  if r.2.2.2 then (.typeErr, dataFinal)
  else if !r.2.1.isEmpty then
    (.err (.inv (invalidNew
      [.pos (msgOf s.msg "schema.error"
        (.str "Problems were found in the submitted data.")),
       .dict (excsToInit r.2.1)] [])), dataFinal)
  else (.ok r.1, dataFinal)

/-- Schema.__call__ (base.py lines 242-291), returning the call outcome
together with the final state of the caller's data mapping (which the call
mutates when filter_extra is false, since res is then the data dictionary
itself). -/
def Schema.callFull (s : Schema) (data : List (String × Val)) :
    CallOutcome × List (String × Val) :=
  if !(s.allow_extra && s.allow_missing) then
    if !s.allow_extra && hasExtra s data then
      (.err (.inv (invalidNew
        [.pos (msgOf s.msg "schema.extra" (.str "extra keys in input"))] [])), data)
    else if !s.allow_missing && hasMissing s data then
      (.err (.inv (invalidNew
        [.pos (msgOf s.msg "schema.missing" (.str "missing keys in input"))] [])), data)
    else s.afterChecks data
  else s.afterChecks data

/-- The outcome of Schema.__call__ alone. -/
def Schema.call (s : Schema) (data : List (String × Val)) : CallOutcome :=
  (s.callFull data).1

/-- The mode adaptation of unpack_errors: collapsing a list-mode dictionary
with the comprehension of line 185, leaving a bare message unchanged. -/
def collapseU : URes → URes
  | .bare v => .bare v
  | .dictL m => .dictC (collapseL m)
  | .dictC m => .dictC m

/-- A leaf validator that always fails with the message e1. -/
def failA : Validator := fun _ => .error (.inv (.mk (some (.str "e1")) []))

/-- A leaf validator that always fails with the message e2. -/
def failB : Validator := fun _ => .error (.inv (.mk (some (.str "e2")) []))

/-- The identity validator. -/
def okId : Validator := fun v => .ok v

/-- Python dict.get(k, default). -/
def dictGet (m : List (String × Val)) (x : String) (dflt : Val) : Val :=
  (aget m x).getD dflt

/-- A two-field validator swapping the two components of a pair. -/
def swapV : Validator := fun v =>
  match v with
  | .tup [a, b] => .ok (.tup [b, a])
  | v => .ok v

/-- The failing outcomes of a run, each paired with the bucket name derived
from the raised exception and the schema key. -/
def failsOf (outs : List Outc) : List (Key × Exc) :=
  outs.filterMap fun q =>
    match q.2.2 with
    | .error e => some (nameOf e q.1, e)
    | .ok _ => Option.none

/-- Grouping a list of named exceptions with setdefault/append, exactly as
the loop accumulates the exceptions dictionary. -/
def groupPairs (l : List (Key × Exc)) : List (Key × List Exc) :=
  l.foldl (fun m p => excAdd m p.1 p.2) []

/-- A validator turning an absent (None) value into a default string. -/
def dfltV : Validator := fun v =>
  match v with
  | .none => .ok (.str "dflt")
  | v => .ok v

/-! ### Shared lemmas -/

theorem aget_aset_self {α β : Type} [DecidableEq α] (l : List (α × β)) (x : α) (y : β) :
    aget (aset l x y) x = some y := by
  induction l with
  | nil => simp [aget, aset]
  | cons p l ih =>
    obtain ⟨a, b⟩ := p
    by_cases h : a = x <;> simp [aget, aset, h, ih]

theorem aget_aset_ne {α β : Type} [DecidableEq α] (l : List (α × β)) (x z : α) (y : β)
    (h : z ≠ x) : aget (aset l x y) z = aget l z := by
  induction l with
  | nil =>
    have : ¬x = z := fun hh => h hh.symm
    simp [aget, aset, this]
  | cons p l ih =>
    obtain ⟨a, b⟩ := p
    by_cases hax : a = x
    · subst hax
      have : ¬a = z := fun hh => h (hh.symm)
      simp [aget, aset, this]
    · by_cases haz : a = z <;> simp [aget, aset, hax, haz, ih, h]

theorem aget_append {α β : Type} [DecidableEq α] (l m : List (α × β)) (x : α) :
    aget (l ++ m) x = ((aget l x).rec (aget m x) fun b => some b) := by
  induction l with
  | nil => simp [aget]
  | cons p l ih =>
    obtain ⟨a, b⟩ := p
    by_cases h : a = x <;> simp [aget, h, ih]

theorem aget_eq_none_of_not_mem_keys {α β : Type} [DecidableEq α]
    (l : List (α × β)) (x : α) (h : x ∉ l.map Prod.fst) : aget l x = Option.none := by
  induction l with
  | nil => simp [aget]
  | cons p l ih =>
    obtain ⟨a, b⟩ := p
    simp only [List.map_cons, List.mem_cons] at h
    push_neg at h
    have : ¬a = x := fun hh => h.1 hh.symm
    simp [aget, this, ih h.2]

theorem mem_of_aget_eq_some {α β : Type} [DecidableEq α]
    {l : List (α × β)} {x : α} {b : β} (h : aget l x = some b) : (x, b) ∈ l := by
  induction l with
  | nil => simp [aget] at h
  | cons p l ih =>
    obtain ⟨a, c⟩ := p
    by_cases hax : a = x
    · subst hax
      simp [aget] at h
      simp [h]
    · simp [aget, hax] at h
      simp [ih h]

theorem mem_aset {α β : Type} [DecidableEq α]
    {l : List (α × β)} {x : α} {y : β} {p : α × β} (h : p ∈ aset l x y) :
    p = (x, y) ∨ p ∈ l := by
  induction l with
  | nil => simpa [aset] using h
  | cons q l ih =>
    obtain ⟨a, b⟩ := q
    by_cases hax : a = x
    · subst hax
      simp [aset] at h
      rcases h with h | h
      · exact Or.inl (by simp [h])
      · exact Or.inr (by simp [h])
    · simp [aset, hax] at h
      rcases h with h | h
      · exact Or.inr (by simp [h])
      · rcases ih h with h' | h'
        · exact Or.inl h'
        · exact Or.inr (by simp [h'])

theorem keys_aset_of_mem {α β : Type} [DecidableEq α]
    (l : List (α × β)) (x : α) (y : β) (h : (aget l x).isSome) :
    (aset l x y).map Prod.fst = l.map Prod.fst := by
  induction l with
  | nil => simp [aget] at h
  | cons p l ih =>
    obtain ⟨a, b⟩ := p
    by_cases hax : a = x
    · simp [aset, hax]
    · simp [aget, hax] at h
      simp [aset, hax, ih h]

mutual
theorem valBeq_iff : ∀ a b : Val, valBeq a b = true ↔ a = b
  | .none, b => by cases b <;> simp [valBeq]
  | .str a, b => by cases b <;> simp [valBeq]
  | .int a, b => by cases b <;> simp [valBeq]
  | .tup a, b => by
      cases b <;> simp [valBeq]
      exact valBeqL_iff a _
theorem valBeqL_iff : ∀ as bs : List Val, valBeqL as bs = true ↔ as = bs
  | [], bs => by cases bs <;> simp [valBeqL]
  | a :: as, bs => by
      cases bs with
      | nil => simp [valBeqL]
      | cons b bs => simp [valBeqL, valBeq_iff a b, valBeqL_iff as bs]
end

theorem aget_isSome_of_mem_keys {α β : Type} [DecidableEq α]
    {l : List (α × β)} {x : α} (h : x ∈ l.map Prod.fst) : (aget l x).isSome := by
  induction l with
  | nil => simp at h
  | cons p l ih =>
    obtain ⟨a, b⟩ := p
    by_cases hax : a = x
    · simp [aget, hax]
    · simp only [List.map_cons, List.mem_cons] at h
      rcases h with h | h
      · exact absurd h.symm hax
      · simp [aget, hax, ih h]

theorem aset_append_fresh {α β : Type} [DecidableEq α]
    (l : List (α × β)) (x : α) (b y : β) (h : aget l x = Option.none) :
    aset (l ++ [(x, b)]) x y = l ++ [(x, y)] := by
  induction l with
  | nil => simp [aset]
  | cons p l ih =>
    obtain ⟨a, c⟩ := p
    by_cases hax : a = x
    · simp [aget, hax] at h
    · simp [aget, hax] at h
      simp [aset, hax, ih h]

/-! ### Claim theorems -/

/-- Claim C3: unpack_errors with list_of_errors=False returns the collapse of
the list-mode result, keeping for each key only the first message of its
bucket and omitting keys with empty buckets; with list_of_errors=True it
returns the full per-key lists.  On ValidationError('top', {'x': 'bad'}),
unpack() gives {None: 'top', 'x': 'bad'} and unpack(errorsAsList=True)
gives {None: ['top'], 'x': ['bad']}. -/
theorem unpack_collapse_modes :
    (∀ (i : Invalid) (fd : Bool),
      unpack_errors i fd false = collapseU (unpack_errors i fd true)) ∧
    unpack_errors
        (invalidNew [.pos (.str "top"), .dict [(Key.s "x", .one (.val (.str "bad")))]] [])
        true false
      = .dictC [(Key.none, .str "top"), (Key.s "x", .str "bad")] ∧
    unpack_errors
        (invalidNew [.pos (.str "top"), .dict [(Key.s "x", .one (.val (.str "bad")))]] [])
        true true
      = .dictL [(Key.none, [.str "top"]), (Key.s "x", [.str "bad"])] := by
  have hctor : invalidNew
      [.pos (.str "top"), .dict [(Key.s "x", .one (.val (.str "bad")))]] []
      = Invalid.mk (some (.str "top")) [(Key.s "x", [.val (.str "bad")])] := rfl
  refine ⟨fun i fd => ?_, ?_, ?_⟩
  · cases i with
    | mk message errors =>
      by_cases h : errors.isEmpty && !fd
      · simp [unpack_errors, h, collapseU]
      · simp [unpack_errors, h, collapseU]
  · rw [hctor]
    simp [unpack_errors, unpackBuckets, unpackMsgs, unpackEntry, safeAppendU, aget, aset,
      collapseL, valTruthy]
  · rw [hctor]
    simp [unpack_errors, unpackBuckets, unpackMsgs, unpackEntry, safeAppendU, aget, aset,
      valTruthy]

/-- The all-validators-fail loop of either: with at least the final validator
present, the last caught exception is re-raised, whatever exception was
recorded before the suffix ran. -/
theorem eitherRun_all_fail_append (x : Val) (vl : Validator) (e : Exc) :
    ∀ (vs : List Validator) (acc : Option Exc),
      (∀ u ∈ vs, ∃ e2, u x = Except.error e2) → vl x = Except.error e →
      eitherRun (vs ++ [vl]) x acc = Except.error (.exc e)
  | [], acc, _, hl => by simp [eitherRun, hl]
  | u :: vs, acc, hall, hl => by
      obtain ⟨e2, he2⟩ := hall u (by simp)
      simp only [List.cons_append, eitherRun, he2]
      exact eitherRun_all_fail_append x vl e vs (some e2)
        (fun u2 hu2 => hall u2 (by simp [hu2])) hl

/-- The first-success loop of either: every failing validator before the
succeeding one receives the original value, and the first success is
returned without consulting the rest. -/
theorem eitherRun_first_success (x w : Val) (v : Validator) (post : List Validator) :
    ∀ (pre : List Validator) (acc : Option Exc),
      (∀ u ∈ pre, ∃ e2, u x = Except.error e2) → v x = Except.ok w →
      eitherRun (pre ++ v :: post) x acc = Except.ok w
  | [], acc, _, hv => by simp [eitherRun, hv]
  | u :: pre, acc, hall, hv => by
      obtain ⟨e2, he2⟩ := hall u (by simp)
      simp only [List.cons_append, eitherRun, he2]
      exact eitherRun_first_success x w v post pre (some e2)
        (fun u2 hu2 => hall u2 (by simp [hu2])) hv

/-- Claim C5: either(v1..vn) tries the validators in order against the
original input (a failing validator does not change the value the next one
receives), returns the first success without invoking the remaining
validators, and if all fail re-raises the last encountered error. -/
theorem either_first_success_last_error (pre post vs : List Validator)
    (v vl : Validator) (x w : Val) (e : Exc) :
    ((∀ u ∈ pre, ∃ e2, u x = Except.error e2) → v x = Except.ok w →
      eitherV (pre ++ v :: post) x = Except.ok w) ∧
    ((∀ u ∈ vs, ∃ e2, u x = Except.error e2) → vl x = Except.error e →
      eitherV (vs ++ [vl]) x = Except.error (.exc e)) :=
  ⟨fun hall hv => eitherRun_first_success x w v post pre Option.none hall hv,
   fun hall hl => eitherRun_all_fail_append x vl e vs Option.none hall hl⟩

theorem either_first_success_last_error_witness :
    eitherV [failA, okId, failB] (Val.int 7) = Except.ok (Val.int 7) ∧
    eitherV [failA, failB] (Val.int 7)
      = Except.error (.exc (.inv (.mk (some (.str "e2")) []))) :=
  ⟨(either_first_success_last_error [failA] [failB] [] okId failB
      (Val.int 7) (Val.int 7) (.inv (.mk Option.none []))).1
      (by intro u hu; simp at hu; subst hu; exact ⟨_, rfl⟩) rfl,
   (either_first_success_last_error [] [] [failA] okId failB
      (Val.int 7) (Val.int 7) (.inv (.mk (some (.str "e2")) []))).2
      (by intro u hu; simp at hu; subst hu; exact ⟨_, rfl⟩) rfl⟩

/-- Claim C6: a validator built by either() from zero validators does not
fail with a defined no-alternative-succeeded ValidationError; invoking it
reads the never-assigned local last_exception, so for every input the
outcome is the UnboundLocalError marker and never a raised Exc.  The code
therefore contradicts the specified contract. -/
theorem either_zero_validators_unbound_local :
    (∀ x : Val, eitherV [] x = Except.error EitherErr.unboundLocal) ∧
    (∀ (x : Val) (e : Exc), eitherV [] x ≠ Except.error (EitherErr.exc e)) :=
  ⟨fun _ => rfl, fun _ e h => by simp [eitherV, eitherRun] at h⟩

/-- Claim C8: with filter_extra=False, Schema.__call__ binds res to the very
input dictionary, so unvalidated keys do pass through, but the call returns
the caller's own mapping mutated in place: after validating {'a': '1',
'b': 'x'} with {'a': integer()}, the final state of the input differs from
the original (the spec and the class docstring promise a new dictionary
built from a shallow copy). -/
theorem filter_extra_false_aliases_input :
    Schema.callFull
        { subvalidators := [(SKey.s "a", VSpec.v (integerV .none))], msg := .none,
          allow_missing := true, allow_extra := true, filter_extra := false }
        [("a", Val.str "1"), ("b", Val.str "x")]
      = (CallOutcome.ok [("a", Val.int 1), ("b", Val.str "x")],
         [("a", Val.int 1), ("b", Val.str "x")]) ∧
    ([("a", Val.int 1), ("b", Val.str "x")] : List (String × Val))
      ≠ [("a", Val.str "1"), ("b", Val.str "x")] :=
  ⟨rfl, by simp⟩

theorem aget_append_of_none {α β : Type} [DecidableEq α]
    {l : List (α × β)} {x : α} (m : List (α × β)) (h : aget l x = Option.none) :
    aget (l ++ m) x = aget m x := by
  induction l with
  | nil => simp [aget]
  | cons p l ih =>
    obtain ⟨a, b⟩ := p
    by_cases hax : a = x
    · simp [aget, hax] at h
    · simp [aget, hax] at h ⊢
      exact ih h

theorem aget_append_of_some {α β : Type} [DecidableEq α]
    {l : List (α × β)} {x : α} {b : β} (m : List (α × β)) (h : aget l x = some b) :
    aget (l ++ m) x = some b := by
  induction l with
  | nil => simp [aget] at h
  | cons p l ih =>
    obtain ⟨a, c⟩ := p
    by_cases hax : a = x
    · simp [aget, hax] at h ⊢
      exact h
    · simp [aget, hax] at h ⊢
      exact ih h

theorem joinDictsUnpack_nil (r : List (Key × List Val)) : joinDictsUnpack r [] = r := rfl

theorem joinDictsUnpack_cons (r : List (Key × List Val)) (k : Key) (w : Val)
    (m : List (Key × Val)) :
    joinDictsUnpack r ((k, w) :: m) = joinDictsUnpack (joinOneU r k w) m := rfl

theorem joinOneU_aget_ne (r : List (Key × List Val)) (k : Key) (v : Val)
    (y : Key) (hyk : y ≠ k) : aget (joinOneU r k v) y = aget r y := by
  cases hrk : aget r k with
  | some l =>
    simp only [joinOneU, hrk, Option.isSome_some, if_true]
    exact aget_aset_ne _ _ _ _ hyk
  | none =>
    simp only [joinOneU, hrk, Option.isSome_none, Bool.false_eq_true, if_false]
    rw [aget_aset_ne _ _ _ _ hyk]
    cases hry : aget r y with
    | some l2 => exact aget_append_of_some _ hry
    | none =>
      rw [aget_append_of_none _ hry]
      have : ¬k = y := fun h => hyk h.symm
      simp [aget, this]

theorem joinOneU_aget_self (r : List (Key × List Val)) (k : Key) (v : Val) :
    aget (joinOneU r k v) k = some (((aget r k).getD []) ++ uext v) := by
  cases hrk : aget r k with
  | some l =>
    simp only [joinOneU, hrk, Option.isSome_some, if_true, Option.getD_some]
    exact aget_aset_self _ _ _
  | none =>
    have h1 : aget (r ++ [(k, ([] : List Val))]) k = some [] := by
      rw [aget_append_of_none _ hrk]
      simp [aget]
    simp only [joinOneU, hrk, Option.isSome_none, Bool.false_eq_true, if_false, h1,
      Option.getD_some, Option.getD_none]
    exact aget_aset_self _ _ _

theorem joinDictsUnpack_preserves (m : List (Key × Val)) :
    ∀ (r : List (Key × List Val)) (y : Key) (v : Val),
      (∃ l, aget r y = some l ∧ v ∈ l) →
      ∃ l2, aget (joinDictsUnpack r m) y = some l2 ∧ v ∈ l2 := by
  induction m with
  | nil =>
    intro r y v h
    exact h
  | cons p m ih =>
    obtain ⟨k, w⟩ := p
    intro r y v h
    obtain ⟨l, hl, hv⟩ := h
    rw [joinDictsUnpack_cons]
    apply ih
    by_cases hyk : y = k
    · subst hyk
      refine ⟨((aget r y).getD []) ++ uext w, joinOneU_aget_self r y w, ?_⟩
      rw [hl, Option.getD_some]
      exact List.mem_append_left _ hv
    · exact ⟨l, by rw [joinOneU_aget_ne r k w y hyk]; exact hl, hv⟩

theorem uext_of_not_tup {v : Val} (h : ∀ vs, v ≠ Val.tup vs) : uext v = [v] := by
  cases v with
  | tup vs => exact absurd rfl (h vs)
  | none => rfl
  | str s => rfl
  | int n => rfl

theorem joinDictsUnpack_mem (m : List (Key × Val)) :
    ∀ (r : List (Key × List Val)) (y : Key) (v : Val),
      (y, v) ∈ m → (∀ vs, v ≠ Val.tup vs) →
      ∃ l, aget (joinDictsUnpack r m) y = some l ∧ v ∈ l := by
  induction m with
  | nil =>
    intro r y v hm _
    simp at hm
  | cons p m ih =>
    obtain ⟨k, w⟩ := p
    intro r y v hm hnt
    rw [joinDictsUnpack_cons]
    rcases List.mem_cons.mp hm with h | h
    · have h1 : y = k := congrArg Prod.fst h
      have h2 : v = w := congrArg Prod.snd h
      subst h1
      subst h2
      apply joinDictsUnpack_preserves
      refine ⟨((aget r y).getD []) ++ uext v, joinOneU_aget_self r y v, ?_⟩
      rw [uext_of_not_tup hnt]
      exact List.mem_append_right _ (by simp)
    · exact ih (joinOneU r k w) y v h hnt

theorem joinDictsUnpack_not_mem (m : List (Key × Val)) :
    ∀ (r : List (Key × List Val)) (y : Key),
      y ∉ m.map Prod.fst → aget (joinDictsUnpack r m) y = aget r y := by
  induction m with
  | nil =>
    intro r y _
    rfl
  | cons p m ih =>
    obtain ⟨k, w⟩ := p
    intro r y h
    simp only [List.map_cons, List.mem_cons] at h
    push_neg at h
    rw [joinDictsUnpack_cons, ih (joinOneU r k w) y h.2, joinOneU_aget_ne r k w y h.1]

/-- Claim C2: when a bucket of a ValidationError holds a nested
ValidationError whose recursive unpack (force_dict=False) yields a mapping,
unpack merges that mapping wholesale into the current-level result via
_join_dicts: the nested field keys land at the current level (the parent
bucket key is untouched when it does not occur in the nested mapping), and
on ValidationError({'x': ValidationError({'y': 'deep'})}) the unpacked
result binds the top-level key 'y', with no entry under 'x'. -/
theorem unpack_flattens_nested_error :
    (∀ (r : List (Key × List Val)) (x : Key) (i2 : Invalid) (m2 : List (Key × Val)),
      unpack_errors i2 false false = .dictC m2 →
      unpackEntry x (.exc (.inv i2)) r = joinDictsUnpack r m2) ∧
    (∀ (r : List (Key × List Val)) (x : Key) (i2 : Invalid) (m2 : List (Key × Val))
        (y : Key) (v : Val),
      unpack_errors i2 false false = .dictC m2 → (y, v) ∈ m2 →
      (∀ vs, v ≠ Val.tup vs) →
      ∃ l, aget (unpackEntry x (.exc (.inv i2)) r) y = some l ∧ v ∈ l) ∧
    (∀ (r : List (Key × List Val)) (x : Key) (i2 : Invalid) (m2 : List (Key × Val)),
      unpack_errors i2 false false = .dictC m2 → x ∉ m2.map Prod.fst →
      aget (unpackEntry x (.exc (.inv i2)) r) x = aget r x) ∧
    unpack_errors
        (invalidNew [.dict [(Key.s "x", .one (.exc (.inv
          (invalidNew [.dict [(Key.s "y", .one (.val (.str "deep")))]] []))))]] [])
        true false
      = .dictC [(Key.s "y", Val.str "deep")] := by
  have hctor : invalidNew [.dict [(Key.s "x", .one (.exc (.inv
        (invalidNew [.dict [(Key.s "y", .one (.val (.str "deep")))]] []))))]] []
      = Invalid.mk Option.none [(Key.s "x",
        [.exc (.inv (.mk Option.none [(Key.s "y", [.val (.str "deep")])]))])] := rfl
  have hstep : ∀ (r : List (Key × List Val)) (x : Key) (i2 : Invalid)
      (m2 : List (Key × Val)),
      unpack_errors i2 false false = .dictC m2 →
      unpackEntry x (.exc (.inv i2)) r = joinDictsUnpack r m2 := by
    intro r x i2 m2 h
    simp [unpackEntry, h]
  refine ⟨hstep, ?_, ?_, ?_⟩
  · intro r x i2 m2 y v h hm hnt
    rw [hstep r x i2 m2 h]
    exact joinDictsUnpack_mem m2 r _ _ hm hnt
  · intro r x i2 m2 h hnm
    rw [hstep r x i2 m2 h]
    exact joinDictsUnpack_not_mem m2 r x hnm
  · rw [hctor]
    simp [unpack_errors, unpackBuckets, unpackMsgs, unpackEntry, safeAppendU, aget, aset,
      collapseL, valTruthy, joinDictsUnpack, joinOneU, uext]

theorem unpack_flattens_nested_error_witness :
    unpack_errors (.mk Option.none [(Key.s "y", [.val (.str "deep")])]) false false
      = .dictC [(Key.s "y", Val.str "deep")] ∧
    unpackEntry (Key.s "x")
        (.exc (.inv (.mk Option.none [(Key.s "y", [.val (.str "deep")])]))) []
      = joinDictsUnpack [] [(Key.s "y", Val.str "deep")] :=
  ⟨by simp [unpack_errors, unpackBuckets, unpackMsgs, unpackEntry, safeAppendU, aget, aset,
      collapseL, valTruthy],
   unpack_flattens_nested_error.1 [] (Key.s "x")
      (.mk Option.none [(Key.s "y", [.val (.str "deep")])])
      [(Key.s "y", Val.str "deep")]
      (by simp [unpack_errors, unpackBuckets, unpackMsgs, unpackEntry, safeAppendU, aget,
        aset, collapseL, valTruthy])⟩

theorem not_mem_of_pyMemVal_false {l : List EEntry} {m : Val}
    (h : pyMemVal l m = false) : EEntry.val m ∉ l := by
  intro hmem
  rw [pyMemVal, List.any_eq_false] at h
  have := h (EEntry.val m) hmem
  simp [valBeq_iff] at this

/-- Claim C7 counterexample: the Invalid constructor merges duplicate
contributions verbatim (_join_dicts appends without a membership test), so
Invalid({'x': 'a'}, {'x': 'a'}, y=[]) holds the message 'a' twice under 'x'
and an empty bucket under 'y', refuting the claimed invariant that every
present field key maps to a non-empty, duplicate-free sequence. -/
theorem invalid_ctor_stores_duplicates :
    (invalidNew
        [.dict [(Key.s "x", .one (.val (.str "a")))],
         .dict [(Key.s "x", .one (.val (.str "a")))]]
        [(Key.s "y", .lst [])]).errors
      = [(Key.s "x", [.val (.str "a"), .val (.str "a")]), (Key.s "y", [])] ∧
    ¬ (∀ p ∈ (invalidNew
        [.dict [(Key.s "x", .one (.val (.str "a")))],
         .dict [(Key.s "x", .one (.val (.str "a")))]]
        [(Key.s "y", .lst [])]).errors, p.2 ≠ ([] : List EEntry) ∧ p.2.Nodup) := by
  refine ⟨rfl, fun h => ?_⟩
  have h2 := h (Key.s "y", ([] : List EEntry))
    (by rw [show (invalidNew
        [.dict [(Key.s "x", .one (.val (.str "a")))],
         .dict [(Key.s "x", .one (.val (.str "a")))]]
        [(Key.s "y", .lst [])]).errors
      = [(Key.s "x", [.val (.str "a"), .val (.str "a")]), (Key.s "y", [])] from rfl]
        simp)
  exact h2.1 rfl

/-- Claim C7 amended: construction can store duplicate or empty buckets (see
the counterexample), but add_error_message maintains the invariant: starting
from an errors dictionary whose buckets are non-empty and duplicate-free, a
call leaves every bucket non-empty and duplicate-free, and the target key's
bucket exists, is non-empty and duplicate-free afterwards. -/
theorem add_error_message_keeps_invariant
    (errs : List (Key × List EEntry)) (k : Key) (m : Val)
    (hnd : ∀ p ∈ errs, (p.2 : List EEntry).Nodup)
    (hne : ∀ p ∈ errs, p.2 ≠ ([] : List EEntry)) :
    (∀ p ∈ addErrorMessage errs k m, p.2.Nodup) ∧
    (∀ p ∈ addErrorMessage errs k m, p.2 ≠ ([] : List EEntry)) ∧
    (∃ l, aget (addErrorMessage errs k m) k = some l ∧ l ≠ [] ∧ l.Nodup) := by
  cases hk : aget errs k with
  | some bucket =>
    have hbmem : (k, bucket) ∈ errs := mem_of_aget_eq_some hk
    cases hmem : pyMemVal bucket m with
    | true =>
      have hres : addErrorMessage errs k m = errs := by
        simp [addErrorMessage, hk, hmem]
      rw [hres]
      exact ⟨hnd, hne, bucket, hk, hne _ hbmem, hnd _ hbmem⟩
    | false =>
      have hres : addErrorMessage errs k m = aset errs k (bucket ++ [EEntry.val m]) := by
        simp [addErrorMessage, hk, hmem]
      have hnotin : EEntry.val m ∉ bucket := not_mem_of_pyMemVal_false hmem
      have hnodup : (bucket ++ [EEntry.val m]).Nodup := by
        rw [List.nodup_append]
        refine ⟨hnd _ hbmem, List.nodup_singleton _, ?_⟩
        intro a ha hb2
        simp only [List.mem_singleton] at hb2
        subst hb2
        exact hnotin ha
      rw [hres]
      refine ⟨?_, ?_, ?_⟩
      · intro p hp
        rcases mem_aset hp with h | h
        · rw [h]
          exact hnodup
        · exact hnd _ h
      · intro p hp
        rcases mem_aset hp with h | h
        · rw [h]
          simp
        · exact hne _ h
      · exact ⟨bucket ++ [EEntry.val m], aget_aset_self _ _ _, by simp, hnodup⟩
  | none =>
    have hget : aget (errs ++ [(k, ([] : List EEntry))]) k = some [] := by
      rw [aget_append_of_none _ hk]
      simp [aget]
    have hres : addErrorMessage errs k m = errs ++ [(k, [EEntry.val m])] := by
      rw [addErrorMessage]
      simp only [hk, Option.isSome_none, Bool.false_eq_true, if_false, hget,
        Option.getD_some]
      rw [show pyMemVal [] m = false from rfl]
      simp only [Bool.false_eq_true, if_false, List.nil_append]
      exact aset_append_fresh errs k [] [EEntry.val m] hk
    rw [hres]
    refine ⟨?_, ?_, ?_⟩
    · intro p hp
      rcases List.mem_append.mp hp with h | h
      · exact hnd _ h
      · simp only [List.mem_singleton] at h
        rw [h]
        exact List.nodup_singleton _
    · intro p hp
      rcases List.mem_append.mp hp with h | h
      · exact hne _ h
      · simp only [List.mem_singleton] at h
        rw [h]
        simp
    · refine ⟨[EEntry.val m], ?_, by simp, List.nodup_singleton _⟩
      rw [aget_append_of_none _ hk]
      simp [aget]

theorem add_error_message_keeps_invariant_witness :
    (∀ p ∈ ([(Key.s "x", [EEntry.val (Val.str "a")])] : List (Key × List EEntry)),
      (p.2 : List EEntry).Nodup) ∧
    (∃ l, aget (addErrorMessage [(Key.s "x", [EEntry.val (Val.str "a")])]
        (Key.s "x") (Val.str "b")) (Key.s "x") = some l ∧ l ≠ [] ∧ l.Nodup) :=
  ⟨by simp,
   (add_error_message_keeps_invariant [(Key.s "x", [EEntry.val (Val.str "a")])]
      (Key.s "x") (Val.str "b") (by simp) (by simp)).2.2⟩

/-- Claim C9: with allow_extra=False, an input containing any key outside the
known key set makes the call fail immediately with the schema-level extra
keys error: the raised Invalid carries no per-field errors and the data
mapping is returned untouched, so no subvalidator ran and no result entries
were produced (the outcome does not mention the subvalidator functions).
Symmetrically, with allow_missing=False a missing known key fails with the
schema-level missing keys error, checked after the extra check; both checks
precede the subvalidator loop. -/
theorem schema_checks_short_circuit (s : Schema) (d : List (String × Val)) :
    (s.allow_extra = false → hasExtra s d = true →
      s.callFull d = (.err (.inv (.mk
        (some (msgOf s.msg "schema.extra" (.str "extra keys in input"))) [])), d)) ∧
    (s.allow_missing = false → hasMissing s d = true →
      (s.allow_extra = true ∨ hasExtra s d = false) →
      s.callFull d = (.err (.inv (.mk
        (some (msgOf s.msg "schema.missing" (.str "missing keys in input"))) [])), d)) := by
  constructor
  · intro hae hx
    rw [Schema.callFull]
    simp [hae, hx, invalidNew, updateMap, normalizeDict]
  · intro ham hm hor
    rw [Schema.callFull]
    rcases hor with h | h
    · simp [ham, hm, h, invalidNew, updateMap, normalizeDict]
    · simp [ham, hm, h, invalidNew, updateMap, normalizeDict]

theorem schema_checks_short_circuit_witness :
    Schema.callFull
        { subvalidators := [(SKey.s "a", VSpec.v okId)], msg := .none,
          allow_missing := true, allow_extra := false, filter_extra := true }
        [("zz", Val.int 1)]
      = (.err (.inv (.mk (some (.str "extra keys in input")) [])), [("zz", Val.int 1)]) ∧
    Schema.callFull
        { subvalidators := [(SKey.s "a", VSpec.v okId)], msg := .none,
          allow_missing := false, allow_extra := true, filter_extra := true }
        ([] : List (String × Val))
      = (.err (.inv (.mk (some (.str "missing keys in input")) [])), []) :=
  ⟨(schema_checks_short_circuit _ _).1 rfl rfl,
   (schema_checks_short_circuit _ _).2 rfl rfl (Or.inl rfl)⟩

/-- Claim C4: in the subvalidator loop the value gathered for a singular key
is res.get(key, data.get(key)) - a value already stored in res by an
earlier-processed key is preferred over the raw input - and a plural key
gathers the tuple of such per-element lookups; when a plural key's validator
succeeds with a tuple, the tuple of keys is zipped with the tuple of results
and each pair is stored individually in res, while a succeeding singular key
stores its result under its own key. -/
theorem schema_gather_and_store
    (al : Bool) (d0 : List (String × Val)) (sv : List (SKey × VSpec))
    (ks : List SKey) (res : List (String × Val)) (excs : List (Key × List Exc))
    (x : String) (xs : List String) (vspec : VSpec) (vs : List Val) (t0 : Val) :
    (gatherOne al d0 res x
      = dictGet res x (dictGet (if al then res else d0) x Val.none)) ∧
    (∀ v, aget res x = some v → gatherOne al d0 res x = v) ∧
    (aget sv (SKey.s x) = some vspec →
      resolveV vspec (gatherOne al d0 res x) = .ok t0 →
      runLoop al d0 sv (SKey.s x :: ks) res excs
        = ((runLoop al d0 sv ks (aset res x t0) excs).1,
           (runLoop al d0 sv ks (aset res x t0) excs).2.1,
           (SKey.s x, gatherOne al d0 res x, .ok t0)
             :: (runLoop al d0 sv ks (aset res x t0) excs).2.2.1,
           (runLoop al d0 sv ks (aset res x t0) excs).2.2.2)) ∧
    (aget sv (SKey.t xs) = some vspec →
      resolveV vspec (Val.tup (xs.map (gatherOne al d0 res))) = .ok (Val.tup vs) →
      runLoop al d0 sv (SKey.t xs :: ks) res excs
        = ((runLoop al d0 sv ks (storePairs res (xs.zip vs)) excs).1,
           (runLoop al d0 sv ks (storePairs res (xs.zip vs)) excs).2.1,
           (SKey.t xs, Val.tup (xs.map (gatherOne al d0 res)), .ok (Val.tup vs))
             :: (runLoop al d0 sv ks (storePairs res (xs.zip vs)) excs).2.2.1,
           (runLoop al d0 sv ks (storePairs res (xs.zip vs)) excs).2.2.2)) := by
  refine ⟨?_, ?_, ?_, ?_⟩
  · cases h1 : aget res x with
    | some v => simp [gatherOne, dictGet, h1]
    | none =>
      cases h2 : aget (if al then res else d0) x <;>
        simp [gatherOne, dictGet, h1, h2]
  · intro v h
    simp [gatherOne, h]
  · intro h1 h2
    simp only [runLoop, h1, h2]
  · intro h1 h2
    simp only [runLoop, h1, h2, seqView]

theorem schema_gather_and_store_witness :
    runLoop false [("q", Val.int 2)] [(SKey.t ["p", "q"], VSpec.v swapV)]
        [SKey.t ["p", "q"]] [("p", Val.int 1)] []
      = ([("p", Val.int 2), ("q", Val.int 1)], [],
         [(SKey.t ["p", "q"], Val.tup [Val.int 1, Val.int 2],
           .ok (Val.tup [Val.int 2, Val.int 1]))], false) := by
  rw [(schema_gather_and_store false [("q", Val.int 2)]
      [(SKey.t ["p", "q"], VSpec.v swapV)] [] [("p", Val.int 1)] []
      "" ["p", "q"] (VSpec.v swapV) [Val.int 2, Val.int 1] Val.none).2.2.2 rfl rfl]
  rfl

theorem aget_excAdd_self (m : List (Key × List Exc)) (n : Key) (e : Exc) :
    aget (excAdd m n e) n = some (((aget m n).getD []) ++ [e]) := by
  cases h : aget m n with
  | some es =>
    simp only [excAdd, h, Option.getD_some]
    exact aget_aset_self _ _ _
  | none =>
    simp only [excAdd, h, Option.getD_none, List.nil_append]
    rw [aget_append_of_none _ h]
    simp [aget]

theorem aget_excAdd_ne (m : List (Key × List Exc)) (n n2 : Key) (e : Exc)
    (hne : n2 ≠ n) : aget (excAdd m n e) n2 = aget m n2 := by
  cases h : aget m n with
  | some es =>
    simp only [excAdd, h]
    exact aget_aset_ne _ _ _ _ hne
  | none =>
    simp only [excAdd, h]
    cases h2 : aget m n2 with
    | some l2 => exact aget_append_of_some _ h2
    | none =>
      rw [aget_append_of_none _ h2]
      have : ¬n = n2 := fun hh => hne hh.symm
      simp [aget, this]

theorem foldl_excAdd_aget (l : List (Key × Exc)) :
    ∀ (m : List (Key × List Exc)) (n : Key),
      aget (l.foldl (fun m p => excAdd m p.1 p.2) m) n
        = (match aget m n with
           | some es => some (es ++ (l.filter fun p => decide (p.1 = n)).map Prod.snd)
           | Option.none =>
             if (l.filter fun p => decide (p.1 = n)).isEmpty then Option.none
             else some ((l.filter fun p => decide (p.1 = n)).map Prod.snd)) := by
  induction l with
  | nil =>
    intro m n
    cases h : aget m n <;> simp [h]
  | cons p l ih =>
    obtain ⟨a, e⟩ := p
    intro m n
    rw [List.foldl_cons, ih (excAdd m a e) n]
    by_cases han : a = n
    · subst han
      rw [aget_excAdd_self]
      cases h : aget m a with
      | some es => simp [h, List.filter_cons]
      | none => simp [h, List.filter_cons]
    · rw [aget_excAdd_ne m a n e (fun hh => han hh.symm)]
      have hf : List.filter (fun p => decide (p.1 = n)) ((a, e) :: l)
          = List.filter (fun p => decide (p.1 = n)) l := by
        simp [List.filter_cons, han]
      rw [hf]

theorem groupPairs_ne_nil {l : List (Key × Exc)} (h : l ≠ []) :
    groupPairs l ≠ [] := by
  cases l with
  | nil => exact absurd rfl h
  | cons p l =>
    intro hcon
    have h1 := foldl_excAdd_aget ((p.1, p.2) :: l) [] p.1
    rw [show groupPairs ((p.1, p.2) :: l) = ((p.1, p.2) :: l).foldl
        (fun m q => excAdd m q.1 q.2) [] from rfl] at hcon
    rw [hcon] at h1
    simp [aget, List.filter_cons] at h1

theorem foldl_excAdd_keys_nodup (l : List (Key × Exc)) :
    ∀ m : List (Key × List Exc), (m.map Prod.fst).Nodup →
      ((l.foldl (fun m p => excAdd m p.1 p.2) m).map Prod.fst).Nodup := by
  induction l with
  | nil =>
    intro m hm
    exact hm
  | cons p l ih =>
    obtain ⟨a, e⟩ := p
    intro m hm
    rw [List.foldl_cons]
    apply ih
    cases h : aget m a with
    | some es =>
      simp only [excAdd, h]
      rw [keys_aset_of_mem _ _ _ (by simp [h])]
      exact hm
    | none =>
      simp only [excAdd, h]
      rw [List.map_append]
      rw [List.nodup_append]
      refine ⟨hm, by simp, ?_⟩
      intro b hb hb2
      simp at hb2
      subst hb2
      have : (aget m b).isSome := aget_isSome_of_mem_keys hb
      rw [h] at this
      simp at this

theorem runLoop_excs_spec (al : Bool) (d0 : List (String × Val))
    (sv : List (SKey × VSpec)) (ks : List SKey) :
    ∀ (res : List (String × Val)) (excs : List (Key × List Exc)),
      (runLoop al d0 sv ks res excs).2.1
        = (failsOf (runLoop al d0 sv ks res excs).2.2.1).foldl
            (fun m p => excAdd m p.1 p.2) excs := by
  induction ks with
  | nil =>
    intro res excs
    rfl
  | cons k ks ih =>
    intro res excs
    cases hv : aget sv k with
    | none => simp [runLoop, hv, failsOf]
    | some vspec =>
      cases k with
      | s x =>
        cases hout : resolveV vspec (gatherOne al d0 res x) with
        | error e =>
          simp only [runLoop, hv, hout]
          rw [ih res (excAdd excs (nameOf e (SKey.s x)) e)]
          simp [failsOf]
        | ok tmp =>
          simp only [runLoop, hv, hout]
          rw [ih (aset res x tmp) excs]
          simp [failsOf]
      | t xs =>
        cases hout : resolveV vspec (Val.tup (xs.map (gatherOne al d0 res))) with
        | error e =>
          simp only [runLoop, hv, hout]
          rw [ih res (excAdd excs (nameOf e (SKey.t xs)) e)]
          simp [failsOf]
        | ok tmp =>
          cases hsq : seqView tmp with
          | some vs =>
            simp only [runLoop, hv, hout, hsq]
            rw [ih (storePairs res (xs.zip vs)) excs]
            simp [failsOf]
          | none =>
            simp [runLoop, hv, hout, hsq, failsOf]

theorem runLoop_no_crash_outs (al : Bool) (d0 : List (String × Val))
    (sv : List (SKey × VSpec)) (ks : List SKey) :
    ∀ (res : List (String × Val)) (excs : List (Key × List Exc)),
      (runLoop al d0 sv ks res excs).2.2.2 = false →
      ((runLoop al d0 sv ks res excs).2.2.1).map Prod.fst = ks := by
  induction ks with
  | nil =>
    intro res excs _
    rfl
  | cons k ks ih =>
    intro res excs hc
    cases hv : aget sv k with
    | none => simp [runLoop, hv] at hc
    | some vspec =>
      cases k with
      | s x =>
        cases hout : resolveV vspec (gatherOne al d0 res x) with
        | error e =>
          simp only [runLoop, hv, hout] at hc ⊢
          simp [ih res (excAdd excs (nameOf e (SKey.s x)) e) hc]
        | ok tmp =>
          simp only [runLoop, hv, hout] at hc ⊢
          simp [ih (aset res x tmp) excs hc]
      | t xs =>
        cases hout : resolveV vspec (Val.tup (xs.map (gatherOne al d0 res))) with
        | error e =>
          simp only [runLoop, hv, hout] at hc ⊢
          simp [ih res (excAdd excs (nameOf e (SKey.t xs)) e) hc]
        | ok tmp =>
          cases hsq : seqView tmp with
          | some vs =>
            simp only [runLoop, hv, hout, hsq] at hc ⊢
            simp [ih (storePairs res (xs.zip vs)) excs hc]
          | none =>
            simp [runLoop, hv, hout, hsq] at hc

theorem runLoop_singular_preserves (al : Bool) (d0 : List (String × Val))
    (sv : List (SKey × VSpec)) (x : String) (ks : List SKey) :
    ∀ (res : List (String × Val)) (excs : List (Key × List Exc)),
      (∀ j ∈ ks, ∃ y, j = SKey.s y ∧ y ≠ x) →
      (∀ j ∈ ks, (aget sv j).isSome) →
      aget (runLoop al d0 sv ks res excs).1 x = aget res x ∧
      (runLoop al d0 sv ks res excs).2.2.2 = false := by
  induction ks with
  | nil =>
    intro res excs _ _
    exact ⟨rfl, rfl⟩
  | cons j ks ih =>
    intro res excs hall hlk
    obtain ⟨y, hy, hyx⟩ := hall j (by simp)
    subst hy
    obtain ⟨vspec, hv⟩ := Option.isSome_iff_exists.mp (hlk (SKey.s y) (by simp))
    have hall2 : ∀ j2 ∈ ks, ∃ y2, j2 = SKey.s y2 ∧ y2 ≠ x :=
      fun j2 hj2 => hall j2 (by simp [hj2])
    have hlk2 : ∀ j2 ∈ ks, (aget sv j2).isSome :=
      fun j2 hj2 => hlk j2 (by simp [hj2])
    cases hout : resolveV vspec (gatherOne al d0 res y) with
    | error e =>
      simp only [runLoop, hv, hout]
      exact ih res (excAdd excs (nameOf e (SKey.s y)) e) hall2 hlk2
    | ok tmp =>
      simp only [runLoop, hv, hout]
      have h2 := ih (aset res y tmp) excs hall2 hlk2
      refine ⟨?_, h2.2⟩
      rw [h2.1, aget_aset_ne res y x tmp (fun hh => hyx hh.symm)]

theorem runLoop_singular_absent (al : Bool) (d0 : List (String × Val))
    (sv : List (SKey × VSpec)) (x : String) (vspec : VSpec) (t : Val)
    (hd0 : aget d0 x = Option.none)
    (hlkx : aget sv (SKey.s x) = some vspec)
    (hok : resolveV vspec Val.none = .ok t) (ks : List SKey) :
    ∀ (res : List (String × Val)) (excs : List (Key × List Exc)),
      (∀ j ∈ ks, ∃ y, j = SKey.s y) →
      (∀ j ∈ ks, (aget sv j).isSome) →
      ks.Nodup →
      SKey.s x ∈ ks →
      aget res x = Option.none →
      (SKey.s x, Val.none, Except.ok t) ∈ (runLoop al d0 sv ks res excs).2.2.1 ∧
      aget (runLoop al d0 sv ks res excs).1 x = some t ∧
      (runLoop al d0 sv ks res excs).2.2.2 = false := by
  induction ks with
  | nil =>
    intro res excs _ _ _ hmem _
    simp at hmem
  | cons j ks ih =>
    intro res excs hall hlk hnd hmem hres
    obtain ⟨y, hy⟩ := hall j (by simp)
    subst hy
    by_cases hyx : y = x
    · subst hyx
      have hgather : gatherOne al d0 res y = Val.none := by
        cases al <;> simp [gatherOne, hres, hd0]
      have hrest : ∀ j2 ∈ ks, ∃ z, j2 = SKey.s z ∧ z ≠ y := by
        intro j2 hj2
        obtain ⟨z, hz⟩ := hall j2 (by simp [hj2])
        refine ⟨z, hz, fun hzy => ?_⟩
        subst hzy
        subst hz
        exact (List.nodup_cons.mp hnd).1 hj2
      have hlk2 : ∀ j2 ∈ ks, (aget sv j2).isSome :=
        fun j2 hj2 => hlk j2 (by simp [hj2])
      have hpres := runLoop_singular_preserves al d0 sv y ks (aset res y t) excs
        hrest hlk2
      simp only [runLoop, hlkx, hgather, hok]
      refine ⟨by simp, ?_, hpres.2⟩
      rw [hpres.1, aget_aset_self]
    · have hxks : SKey.s x ∈ ks := by
        rcases List.mem_cons.mp hmem with h | h
        · exact absurd (congrArg (fun j => match j with
            | SKey.s z => z
            | SKey.t _ => "") h.symm) hyx
        · exact h
      obtain ⟨vspec2, hv2⟩ := Option.isSome_iff_exists.mp (hlk (SKey.s y) (by simp))
      have hall2 : ∀ j2 ∈ ks, ∃ y2, j2 = SKey.s y2 :=
        fun j2 hj2 => hall j2 (by simp [hj2])
      have hlk2 : ∀ j2 ∈ ks, (aget sv j2).isSome :=
        fun j2 hj2 => hlk j2 (by simp [hj2])
      have hnd2 : ks.Nodup := (List.nodup_cons.mp hnd).2
      cases hout : resolveV vspec2 (gatherOne al d0 res y) with
      | error e =>
        simp only [runLoop, hv2, hout]
        have h3 := ih res (excAdd excs (nameOf e (SKey.s y)) e) hall2 hlk2 hnd2 hxks hres
        exact ⟨by simp [h3.1], h3.2.1, h3.2.2⟩
      | ok tmp =>
        simp only [runLoop, hv2, hout]
        have hres2 : aget (aset res y tmp) x = Option.none := by
          rw [aget_aset_ne res y x tmp (fun hh => hyx hh.symm)]
          exact hres
        have h3 := ih (aset res y tmp) excs hall2 hlk2 hnd2 hxks hres2
        exact ⟨by simp [h3.1], h3.2.1, h3.2.2⟩

theorem afterChecks_ok_res (s : Schema) (d : List (String × Val))
    (r : List (String × Val)) (h : (s.afterChecks d).1 = .ok r) :
    r = (s.runAll d).1 := by
  simp only [Schema.afterChecks] at h
  split at h
  · simp at h
  · split at h
    · simp at h
    · simp at h
      exact h.symm

theorem call_ok_res (s : Schema) (d : List (String × Val))
    (r : List (String × Val)) (h : s.call d = .ok r) : r = (s.runAll d).1 := by
  rw [Schema.call, Schema.callFull] at h
  split at h
  · split at h
    · simp at h
    · split at h
      · simp at h
      · exact afterChecks_ok_res s d r h
  · exact afterChecks_ok_res s d r h

theorem joinDictsInit_excs (m : List (Key × List Exc)) :
    ∀ r : List (Key × List EEntry),
      (∀ p ∈ m, p.1 ∉ r.map Prod.fst) → (m.map Prod.fst).Nodup →
      joinDictsInit r (excsToInit m)
        = r ++ m.map fun p => (p.1, p.2.map EEntry.exc) := by
  induction m with
  | nil =>
    intro r _ _
    simp [joinDictsInit, excsToInit]
  | cons p m ih =>
    obtain ⟨k, es⟩ := p
    intro r hdisj hnd
    have hk : aget r k = Option.none :=
      aget_eq_none_of_not_mem_keys r k (hdisj (k, es) (by simp))
    have h1 : aget (r ++ [(k, ([] : List EEntry))]) k = some [] := by
      rw [aget_append_of_none _ hk]
      simp [aget]
    have hstep : joinOneInit r k (.lst (es.map EEntry.exc))
        = r ++ [(k, es.map EEntry.exc)] := by
      rw [joinOneInit]
      simp only [hk, Option.isSome_none, Bool.false_eq_true, if_false, h1,
        Option.getD_some, List.nil_append, initvEntries]
      exact aset_append_fresh r k [] _ hk
    have hnd' : (m.map Prod.fst).Nodup := (List.nodup_cons.mp (by simpa using hnd)).2
    have hknotin : k ∉ m.map Prod.fst := (List.nodup_cons.mp (by simpa using hnd)).1
    have hdisj' : ∀ p ∈ m, p.1 ∉ (r ++ [(k, es.map EEntry.exc)]).map Prod.fst := by
      intro p hp
      rw [List.map_append, List.mem_append]
      push_neg
      refine ⟨hdisj p (by simp [hp]), ?_⟩
      simp only [List.map_cons, List.map_nil, List.mem_singleton]
      intro hpk
      exact hknotin (hpk ▸ List.mem_map_of_mem Prod.fst hp)
    have hcons : joinDictsInit r (excsToInit ((k, es) :: m))
        = joinDictsInit (joinOneInit r k (.lst (es.map EEntry.exc))) (excsToInit m) := rfl
    rw [hcons, hstep, ih (r ++ [(k, es.map EEntry.exc)]) hdisj' hnd']
    simp

theorem invalidNew_schema_raise (mv : Val) (excs : List (Key × List Exc))
    (hnd : (excs.map Prod.fst).Nodup) :
    invalidNew [.pos mv, .dict (excsToInit excs)] []
      = .mk (some mv) (excs.map fun p => (p.1, p.2.map EEntry.exc)) := by
  rw [invalidNew]
  simp only [List.foldl_cons, List.foldl_nil, List.filterMap_cons]
  rw [joinDictsInit_excs excs [] (by simp) hnd]
  simp [updateMap, normalizeDict]

theorem callFull_checks_pass (s : Schema) (d : List (String × Val))
    (hx : s.allow_extra = false → hasExtra s d = false)
    (hm : s.allow_missing = false → hasMissing s d = false) :
    s.callFull d = s.afterChecks d := by
  rw [Schema.callFull]
  by_cases h1 : s.allow_extra
  · by_cases h2 : s.allow_missing
    · simp [h1, h2]
    · simp only [Bool.not_eq_true] at h2
      simp [h1, h2, hm h2]
  · simp only [Bool.not_eq_true] at h1
    by_cases h2 : s.allow_missing
    · simp [h1, h2, hx h1]
    · simp only [Bool.not_eq_true] at h2
      simp [h1, h2, hx h1, hm h2]

theorem groupPairs_aget (l : List (Key × Exc)) (n : Key) :
    aget (groupPairs l) n
      = (if (l.filter fun p => decide (p.1 = n)).isEmpty then Option.none
         else some ((l.filter fun p => decide (p.1 = n)).map Prod.snd)) := by
  have h1 := foldl_excAdd_aget l [] n
  rw [show groupPairs l = l.foldl (fun m p => excAdd m p.1 p.2) [] from rfl, h1]
  rfl

/-- Claim C10: with allow_missing=True, a declared singular key absent from
both the input and the partial result is not skipped.  At the loop level
this holds for every schema: when the key is absent from res and from data,
the subvalidator is invoked with None as the gathered value and on success
its output is stored under the key.  At the call level (stated for schemas
whose declared keys are all singular and distinct), the call reaches the
loop, logs the invocation with None, and on overall success the returned
mapping binds the key to the validator's output even though the key was
absent from the input. -/
theorem schema_missing_singular_key_gets_none
    (s : Schema) (d : List (String × Val)) (x : String) (vspec : VSpec) (t : Val)
    (ham : s.allow_missing = true)
    (hx : s.allow_extra = false → hasExtra s d = false)
    (hall : ∀ j ∈ s.subvalidators.map Prod.fst, ∃ y, j = SKey.s y)
    (hnd : (s.subvalidators.map Prod.fst).Nodup)
    (hlkx : aget s.subvalidators (SKey.s x) = some vspec)
    (habs : aget d x = Option.none)
    (hok : resolveV vspec Val.none = .ok t) :
    (s.callFull d = s.afterChecks d) ∧
    ((SKey.s x, Val.none, Except.ok t) ∈ (s.runAll d).2.2.1) ∧
    (∀ r, s.call d = .ok r → aget r x = some t) ∧
    (∀ (al : Bool) (d2 res : List (String × Val)) (sv : List (SKey × VSpec))
        (ks : List SKey) (excs : List (Key × List Exc)) (x2 : String)
        (vs2 : VSpec) (t2 : Val),
      aget res x2 = Option.none → aget d2 x2 = Option.none →
      aget sv (SKey.s x2) = some vs2 → resolveV vs2 Val.none = Except.ok t2 →
      runLoop al d2 sv (SKey.s x2 :: ks) res excs
        = ((runLoop al d2 sv ks (aset res x2 t2) excs).1,
           (runLoop al d2 sv ks (aset res x2 t2) excs).2.1,
           (SKey.s x2, Val.none, Except.ok t2)
             :: (runLoop al d2 sv ks (aset res x2 t2) excs).2.2.1,
           (runLoop al d2 sv ks (aset res x2 t2) excs).2.2.2)) := by
  have hm : s.allow_missing = false → hasMissing s d = false := fun h =>
    absurd (ham.symm.trans h) (by decide)
  have hperm : (sortedKeys s).Perm (s.subvalidators.map Prod.fst) := by
    rw [sortedKeys]
    exact List.perm_insertionSort skeyLe (s.subvalidators.map Prod.fst)
  have hall2 : ∀ j ∈ sortedKeys s, ∃ y, j = SKey.s y :=
    fun j hj => hall j (hperm.mem_iff.mp hj)
  have hlk2 : ∀ j ∈ sortedKeys s, (aget s.subvalidators j).isSome :=
    fun j hj => aget_isSome_of_mem_keys (hperm.mem_iff.mp hj)
  have hnd2 : (sortedKeys s).Nodup := hperm.nodup_iff.mpr hnd
  have hmem2 : SKey.s x ∈ sortedKeys s := by
    apply hperm.mem_iff.mpr
    exact List.mem_map_of_mem Prod.fst (mem_of_aget_eq_some hlkx)
  have hres0 : aget (if !s.filter_extra then d else []) x = Option.none := by
    cases hfe : s.filter_extra <;> simp [hfe, habs, aget]
  have hmain := runLoop_singular_absent (!s.filter_extra) d s.subvalidators x vspec t
    habs hlkx hok (sortedKeys s) (if !s.filter_extra then d else []) []
    hall2 hlk2 hnd2 hmem2 hres0
  refine ⟨callFull_checks_pass s d hx hm, hmain.1, fun r hr => ?_, ?_⟩
  · rw [call_ok_res s d r hr]
    exact hmain.2.1
  · intro al d2 res sv ks excs x2 vs2 t2 h1 h2 h3 h4
    have hg : gatherOne al d2 res x2 = Val.none := by
      cases al <;> simp [gatherOne, h1, h2]
    simp only [runLoop, h3, hg, h4]

theorem schema_missing_singular_key_gets_none_witness :
    ((SKey.s "a", Val.none, Except.ok (Val.str "dflt")) ∈
      (Schema.runAll
        { subvalidators := [(SKey.s "a", VSpec.v dfltV)], msg := .none,
          allow_missing := true, allow_extra := true, filter_extra := true }
        []).2.2.1) ∧
    aget [("a", Val.str "dflt")] "a" = some (Val.str "dflt") :=
  ⟨(schema_missing_singular_key_gets_none
      { subvalidators := [(SKey.s "a", VSpec.v dfltV)], msg := .none,
        allow_missing := true, allow_extra := true, filter_extra := true }
      [] "a" (VSpec.v dfltV) (Val.str "dflt")
      rfl (fun h => nomatch h)
      (by intro j hj; simp at hj; exact ⟨"a", hj⟩)
      (by simp) rfl rfl rfl).2.1,
   (schema_missing_singular_key_gets_none
      { subvalidators := [(SKey.s "a", VSpec.v dfltV)], msg := .none,
        allow_missing := true, allow_extra := true, filter_extra := true }
      [] "a" (VSpec.v dfltV) (Val.str "dflt")
      rfl (fun h => nomatch h)
      (by intro j hj; simp at hj; exact ⟨"a", hj⟩)
      (by simp) rfl rfl rfl).2.2.1 [("a", Val.str "dflt")] rfl⟩

/-- Claim C1: when the extra and missing checks pass (and the loop does not
abort on an uncaught exception), the Schema runs every declared
subvalidator: the per-key outcome log covers the whole sorted key list,
which is a permutation of the declared keys.  The exceptions dictionary is
exactly the grouping of the failing outcomes, so a bucket exists for a name
precisely when some subvalidator failed with that name, each bucket lists
exactly those exceptions, and successful keys contribute nothing.  If no
subvalidator failed the call returns the result mapping; otherwise it
raises one aggregated Invalid built from the schema message and the bucket
mapping.  On Schema({'a': integer(), 'b': integer()}) applied to
{'a': '1', 'b': 'x'} the call fails and the unpacked error has an entry for
'b' and none for 'a'. -/
theorem schema_aggregates_all_failures (s : Schema) (d : List (String × Val))
    (hx : s.allow_extra = false → hasExtra s d = false)
    (hm : s.allow_missing = false → hasMissing s d = false)
    (hc : (s.runAll d).2.2.2 = false) :
    ((s.runAll d).2.2.1.map Prod.fst = sortedKeys s) ∧
    ((sortedKeys s).Perm (s.subvalidators.map Prod.fst)) ∧
    ((s.runAll d).2.1 = groupPairs (failsOf (s.runAll d).2.2.1)) ∧
    (failsOf (s.runAll d).2.2.1 = [] → s.call d = .ok (s.runAll d).1) ∧
    (failsOf (s.runAll d).2.2.1 ≠ [] →
      s.call d = .err (.inv (Invalid.mk
        (some (msgOf s.msg "schema.error"
          (.str "Problems were found in the submitted data.")))
        ((s.runAll d).2.1.map fun p => (p.1, p.2.map EEntry.exc))))) ∧
    (∀ n, (aget (s.runAll d).2.1 n).isSome
        ↔ ∃ q ∈ failsOf (s.runAll d).2.2.1, q.1 = n) ∧
    (∀ n es, aget (s.runAll d).2.1 n = some es →
      es = ((failsOf (s.runAll d).2.2.1).filter fun q => decide (q.1 = n)).map
        Prod.snd) ∧
    (Schema.call
        { subvalidators := [(SKey.s "a", VSpec.v (integerV .none)),
            (SKey.s "b", VSpec.v (integerV .none))], msg := .none,
          allow_missing := true, allow_extra := true, filter_extra := true }
        [("a", Val.str "1"), ("b", Val.str "x")]
      = .err (.inv (Invalid.mk
          (some (Val.str "Problems were found in the submitted data."))
          [(Key.s "b",
            [.exc (.inv (Invalid.mk (some (Val.str "not an integer")) []))])]))) ∧
    (unpack_errors (Invalid.mk
        (some (Val.str "Problems were found in the submitted data."))
        [(Key.s "b",
          [.exc (.inv (Invalid.mk (some (Val.str "not an integer")) []))])])
        true false
      = .dictC [(Key.none, Val.str "Problems were found in the submitted data."),
                (Key.s "b", Val.str "not an integer")]) := by
  have hgroup : (s.runAll d).2.1 = groupPairs (failsOf (s.runAll d).2.2.1) :=
    runLoop_excs_spec (!s.filter_extra) d s.subvalidators (sortedKeys s)
      (if !s.filter_extra then d else []) []
  have houts : (s.runAll d).2.2.1.map Prod.fst = sortedKeys s :=
    runLoop_no_crash_outs (!s.filter_extra) d s.subvalidators (sortedKeys s)
      (if !s.filter_extra then d else []) [] hc
  have hperm : (sortedKeys s).Perm (s.subvalidators.map Prod.fst) := by
    rw [sortedKeys]
    exact List.perm_insertionSort skeyLe (s.subvalidators.map Prod.fst)
  have hcall : s.callFull d = s.afterChecks d := callFull_checks_pass s d hx hm
  have hkeysnd : ((s.runAll d).2.1.map Prod.fst).Nodup := by
    rw [hgroup]
    exact foldl_excAdd_keys_nodup _ [] (by simp)
  refine ⟨houts, hperm, hgroup, ?_, ?_, ?_, ?_, rfl, ?_⟩
  · intro h0
    have hempty : (s.runAll d).2.1 = [] := by
      rw [hgroup, h0]
      rfl
    rw [Schema.call, hcall]
    simp [Schema.afterChecks, hc, hempty]
  · intro h0
    have hne : (s.runAll d).2.1 ≠ [] := by
      rw [hgroup]
      exact groupPairs_ne_nil h0
    have hie : (s.runAll d).2.1.isEmpty = false := by
      cases hE : (s.runAll d).2.1 with
      | nil => exact absurd hE hne
      | cons a l => rfl
    rw [Schema.call, hcall]
    simp only [Schema.afterChecks, hc, hie, Bool.false_eq_true, if_false,
      Bool.not_false, if_true]
    rw [invalidNew_schema_raise _ _ hkeysnd]
  · intro n
    rw [hgroup, groupPairs_aget]
    by_cases hemp :
        ((failsOf (s.runAll d).2.2.1).filter fun q => decide (q.1 = n)).isEmpty
    · rw [if_pos hemp]
      simp only [Option.isSome_none, Bool.false_eq_true, false_iff]
      rintro ⟨q, hq, hq1⟩
      have hqf : q ∈ (failsOf (s.runAll d).2.2.1).filter
          (fun q => decide (q.1 = n)) :=
        List.mem_filter.mpr ⟨hq, by simpa using hq1⟩
      cases hE : (failsOf (s.runAll d).2.2.1).filter (fun q => decide (q.1 = n)) with
      | nil =>
        rw [hE] at hqf
        simp at hqf
      | cons a l =>
        rw [hE] at hemp
        simp at hemp
    · rw [if_neg hemp]
      cases hE : (failsOf (s.runAll d).2.2.1).filter (fun q => decide (q.1 = n)) with
      | nil =>
        rw [hE] at hemp
        simp at hemp
      | cons q qs =>
        simp only [Option.isSome_some, true_iff]
        have hqmem : q ∈ (failsOf (s.runAll d).2.2.1).filter
            (fun q => decide (q.1 = n)) := by
          rw [hE]
          simp
        have hq2 := List.mem_filter.mp hqmem
        exact ⟨q, hq2.1, by simpa using hq2.2⟩
  · intro n es h
    rw [hgroup, groupPairs_aget] at h
    by_cases hemp :
        ((failsOf (s.runAll d).2.2.1).filter fun q => decide (q.1 = n)).isEmpty
    · rw [if_pos hemp] at h
      exact absurd h (by simp)
    · rw [if_neg hemp] at h
      exact (Option.some.inj h).symm
  · simp [unpack_errors, unpackBuckets, unpackMsgs, unpackEntry, safeAppendU, aget,
      aset, collapseL, valTruthy]

theorem schema_aggregates_all_failures_witness :
    ((Schema.runAll
        { subvalidators := [(SKey.s "a", VSpec.v (integerV .none)),
            (SKey.s "b", VSpec.v (integerV .none))], msg := .none,
          allow_missing := true, allow_extra := true, filter_extra := true }
        [("a", Val.str "1"), ("b", Val.str "x")]).2.2.2 = false) ∧
    ((Schema.runAll
        { subvalidators := [(SKey.s "a", VSpec.v (integerV .none)),
            (SKey.s "b", VSpec.v (integerV .none))], msg := .none,
          allow_missing := true, allow_extra := true, filter_extra := true }
        [("a", Val.str "1"), ("b", Val.str "x")]).2.2.1.map Prod.fst
      = sortedKeys
        { subvalidators := [(SKey.s "a", VSpec.v (integerV .none)),
            (SKey.s "b", VSpec.v (integerV .none))], msg := .none,
          allow_missing := true, allow_extra := true, filter_extra := true }) :=
  ⟨rfl, (schema_aggregates_all_failures
      { subvalidators := [(SKey.s "a", VSpec.v (integerV .none)),
          (SKey.s "b", VSpec.v (integerV .none))], msg := .none,
        allow_missing := true, allow_extra := true, filter_extra := true }
      [("a", Val.str "1"), ("b", Val.str "x")]
      (fun h => nomatch h) (fun h => nomatch h) rfl).1⟩

end Validino
